import Mathlib

/-!
Verification of the `uuid6` draft UUID library (versions 6 and 7).

The Python source (`src/uuid6/__init__.py`) is shallowly embedded below:
128-bit UUID values are natural numbers, Python's arbitrary-precision
integer operations `&`, `|`, `^`, `<<`, `>>`, `//`, `%` become the
corresponding `Nat`/`Int` operations, the module-level monotonicity
watermarks (`_last_v6_timestamp`, `_last_v7_timestamp`) become explicit
`Option ℕ` state threaded through the generator step functions, and the
two fallible constructor checks of `DraftUUID.__init__` become an
`Option`-returning constructor.  CPython's float true-division of two
integers (used by `_subsec_decode`) is modelled by `toDouble`, the
correctly-rounded (round-to-nearest, ties-to-even, 53-bit significand)
double of an exact rational; the model covers the normal binary64 range,
which contains every value produced by the code below.
-/

set_option maxRecDepth 4000

namespace UUID6

/-- Round a rational to the nearest integer, ties to even.  This is the
significand rounding used by IEEE-754 round-to-nearest-even. -/
def rne (q : ℚ) : ℤ :=
  if q - ⌊q⌋ < 1 / 2 then ⌊q⌋
  else if 1 / 2 < q - ⌊q⌋ then ⌊q⌋ + 1
  else if ⌊q⌋ % 2 = 0 then ⌊q⌋ else ⌊q⌋ + 1

/-- Model of the binary64 value closest to a nonnegative rational `q`
(round-to-nearest-even at 53 significant bits).  CPython's true division
`a / b` of two nonnegative integers returns exactly this double of the
rational `a / b` (for results in the normal range, which covers every
division performed by `_subsec_decode` below). -/
def toDouble (q : ℚ) : ℚ :=
  if q ≤ 0 then 0
  else (rne (q * 2 ^ (52 - Int.log 2 q)) : ℚ) * 2 ^ (Int.log 2 q - 52)

/-- Translation of `_subsec_decode(value) = math.ceil(value * 10**9 / 2**30)`:
the division is CPython float division, modelled by `toDouble`, and
`math.ceil` is the exact ceiling of that double. -/
def _subsec_decode (value : ℕ) : ℤ :=
  ⌈toDouble (((value : ℚ) * 10 ^ 9) / 2 ^ 30)⌉

/-- Translation of `_subsec_encode(value) = value * 2**30 // 10**9`
(integer floor division). -/
def _subsec_encode (value : ℕ) : ℕ :=
  value * 2 ^ 30 / 10 ^ 9

/-- Python's `v & ~m` on a nonnegative arbitrary-precision integer `v`
clears in `v` the bits set in `m`; over ℕ this equals `v ^^^ (v &&& m)`. -/
def andNot (v m : ℕ) : ℕ :=
  v ^^^ (v &&& m)

/-- Translation of the tagging steps of `DraftUUID.__init__` when a
version is supplied: clear the two variant bits (`int &= ~(0xC000 << 48)`),
set the RFC-4122 variant (`int |= 0x8000 << 48`), clear the version nibble
(`int &= ~(0xF000 << 64)`) and install the version (`int |= version << 76`). -/
def applyVersionVariant (int : ℕ) (version : ℕ) : ℕ :=
  (andNot (andNot int (0xC000 <<< 48) ||| (0x8000 <<< 48)) (0xF000 <<< 64))
    ||| (version <<< 76)

/-- Translation of `DraftUUID.__init__(int, version)` (the spec's
`construct_uuid`): `None` result models the raised `ValueError`.  The range
check on `int` runs first, then the version check; with no version the raw
integer is stored verbatim. -/
def construct_uuid (int : ℤ) (version : Option ℤ) : Option ℕ :=
  if ¬(0 ≤ int ∧ int < 2 ^ 128) then none
  else
    match version with
    | none => some int.toNat
    | some v =>
        if ¬(6 ≤ v ∧ v ≤ 7) then none
        else some (applyVersionVariant int.toNat v.toNat)

/-- Standard-library UUID field accessor `time_low = int >> 96`. -/
def time_low (u : ℕ) : ℕ := u >>> 96

/-- Standard-library UUID field accessor `time_mid = (int >> 80) & 0xFFFF`. -/
def time_mid (u : ℕ) : ℕ := (u >>> 80) &&& 0xFFFF

/-- Standard-library UUID field accessor
`time_hi_version = (int >> 64) & 0xFFFF`. -/
def time_hi_version (u : ℕ) : ℕ := (u >>> 64) &&& 0xFFFF

/-- Standard-library UUID field accessor
`clock_seq_hi_variant = (int >> 56) & 0xFF`. -/
def clock_seq_hi_variant (u : ℕ) : ℕ := (u >>> 56) &&& 0xFF

/-- Standard-library `UUID.version`: the version nibble `(int >> 76) & 0xF`,
meaningful (non-`None`) exactly when the variant is RFC 4122, i.e. when
`int & (0x8000 << 48)` is nonzero and `int & (0x4000 << 48)` is zero. -/
def version (u : ℕ) : Option ℕ :=
  if u &&& (0x8000 <<< 48) ≠ 0 ∧ u &&& (0x4000 <<< 48) = 0
  then some ((u >>> 76) &&& 0xF)
  else none

/-- Translation of the `DraftUUID.subsec` property. -/
def subsec (u : ℕ) : ℕ :=
  ((time_mid u &&& 0x0FFF) <<< 18) ||| ((time_hi_version u &&& 0x0FFF) <<< 6)
    ||| (clock_seq_hi_variant u &&& 0x3F)

/-- Translation of the `DraftUUID.unixts` property:
`time_low << 4 | time_mid >> 12`. -/
def unixts (u : ℕ) : ℕ :=
  (time_low u <<< 4) ||| (time_mid u >>> 12)

/-- Translation of the `DraftUUID.time` property (the spec's FieldReader):
v6 reassembles the 60-bit timestamp, v7 returns
`unixts * 10**9 + _subsec_decode(subsec)`, any other version falls back to
the standard-library `UUID.time`
(`(time_hi_version & 0x0FFF) << 48 | time_mid << 32 | time_low`). -/
def time (u : ℕ) : ℤ :=
  if version u = some 6 then
    (((time_low u <<< 28) ||| (time_mid u <<< 12)
      ||| (time_hi_version u &&& 0x0FFF) : ℕ) : ℤ)
  else if version u = some 7 then
    (unixts u : ℤ) * 10 ^ 9 + _subsec_decode (subsec u)
  else
    ((((time_hi_version u &&& 0x0FFF) <<< 48) ||| (time_mid u <<< 32)
      ||| time_low u : ℕ) : ℤ)

/-- Monotonic watermark step shared by `uuid6` and `uuid7` (the spec's
`advance(kind, candidate)`): translation of
`if _last is not None and candidate <= _last: candidate = _last + 1`
followed by `_last = candidate`.  Returns the issued value and the new
watermark. -/
def advance (last : Option ℕ) (candidate : ℕ) : ℕ × Option ℕ :=
  match last with
  | some w => if candidate ≤ w then (w + 1, some (w + 1)) else (candidate, some candidate)
  | none => (candidate, some candidate)

/-- Issued timestamps of a sequence of calls, threading the watermark. -/
def runClock (last : Option ℕ) : List ℕ → List ℕ
  | [] => []
  | c :: cs =>
      let r := advance last c
      r.1 :: runClock r.2 cs

/-- Packing step of `uuid6()` for an already-issued 60-bit-epoch timestamp:
`time_high_and_time_mid = (timestamp >> 12) & 0xFFFFFFFFFFFF`,
`time_low_and_version = timestamp & 0x0FFF`, then
`uuid_int = thm << 80 | tlv << 64 | (clock_seq & 0x3FFF) << 48 | node`.
Python's `clock_seq & 0x3FFF` on an arbitrary (possibly negative) integer
is `Int.land`, whose two's-complement semantics match Python's. -/
def uuid6_int (timestamp : ℕ) (clock_seq : ℤ) (node : ℕ) : ℕ :=
  ((((timestamp >>> 12) &&& 0xFFFFFFFFFFFF) <<< 80)
    ||| ((timestamp &&& 0x0FFF) <<< 64))
    ||| ((Int.land clock_seq 0x3FFF).toNat <<< 48)
    ||| node

/-- One full call of `uuid6(clock_seq)`: read `nanoseconds` from the time
source, convert to 100-ns ticks since the UUID epoch, pass through the
watermark, pack, and construct with version 6.  `cs_rand` and `node` stand
for the values drawn from `secrets.randbits(14)` / `secrets.randbits(48)`.
Returns the constructed UUID (`none` would be a raised `ValueError`) and
the new watermark. -/
def uuid6_gen (last : Option ℕ) (nanoseconds : ℕ) (clock_seq : Option ℤ)
    (cs_rand : ℕ) (node : ℕ) : Option ℕ × Option ℕ :=
  let timestamp := nanoseconds / 100 + 0x01B21DD213814000
  let r := advance last timestamp
  let cs : ℤ := match clock_seq with
    | some c => c
    | none => (cs_rand : ℤ)
  (construct_uuid (uuid6_int r.1 cs node) (some 6), r.2)

/-- Packing step of `uuid7()` for an already-issued nanosecond timestamp:
`timestamp_s, timestamp_ns = divmod(nanoseconds, 10**9)`,
`subsec = _subsec_encode(timestamp_ns)`, split into `subsec_a = subsec >> 18`,
`subsec_b = (subsec >> 6) & 0x0FFF`, `subsec_c = subsec & 0x3F`, then
`uuid_int = (timestamp_s & 0x0FFFFFFFFF) << 92 | subsec_a << 80 |
subsec_b << 64 | subsec_c << 56 | rand`. -/
def uuid7_int (nanoseconds : ℕ) (rand : ℕ) : ℕ :=
  let timestamp_s := nanoseconds / 10 ^ 9
  let timestamp_ns := nanoseconds % 10 ^ 9
  let subsec := _subsec_encode timestamp_ns
  ((((timestamp_s &&& 0x0FFFFFFFFF) <<< 92)
    ||| ((subsec >>> 18) <<< 80))
    ||| (((subsec >>> 6) &&& 0x0FFF) <<< 64))
    ||| ((subsec &&& 0x3F) <<< 56)
    ||| rand

/-- One full call of `uuid7()`: read `nanoseconds`, pass through the
watermark, pack, construct with version 7.  `rand` stands for the value
drawn from `secrets.randbits(56)`. -/
def uuid7_gen (last : Option ℕ) (nanoseconds : ℕ) (rand : ℕ) :
    Option ℕ × Option ℕ :=
  let r := advance last nanoseconds
  (construct_uuid (uuid7_int r.1 rand) (some 7), r.2)

/-- Modelled from the spec: the packing layout claimed in §4.4 step 8,
`[timestamp_s:40][subsec_a:12][subsec_b:12][subsec_c:6][random:56]` — a
40-bit whole-second field at the top of a 126-bit payload, fields
concatenated most-significant first.  Stated only to be compared against
the source's `uuid7_int`. -/
def uuid7_int_spec40 (nanoseconds : ℕ) (rand : ℕ) : ℕ :=
  let timestamp_s := nanoseconds / 10 ^ 9
  let timestamp_ns := nanoseconds % 10 ^ 9
  let subsec := _subsec_encode timestamp_ns
  (timestamp_s % 2 ^ 40) * 2 ^ 86 + (subsec >>> 18) * 2 ^ 74
    + ((subsec >>> 6) % 2 ^ 12) * 2 ^ 62 + (subsec % 2 ^ 6) * 2 ^ 56
    + rand % 2 ^ 56

/-! ## Bit-manipulation toolkit -/

theorem testBit_mul_pow (A : ℕ) {k i : ℕ} :
    (A * 2 ^ k).testBit i = (decide (k ≤ i) && A.testBit (i - k)) := by
  rw [← Nat.shiftLeft_eq, Nat.testBit_shiftLeft]

theorem testBit_add_mul_pow_low {i k : ℕ} (A L : ℕ) (hi : i < k) :
    (A * 2 ^ k + L).testBit i = L.testBit i := by
  have hs : A * 2 ^ k + L = L + 2 ^ i * (2 * (A * 2 ^ (k - i - 1))) := by
    have hk : k = i + 1 + (k - i - 1) := by omega
    calc A * 2 ^ k + L = A * 2 ^ (i + 1 + (k - i - 1)) + L := by rw [← hk]
      _ = L + 2 ^ i * (2 * (A * 2 ^ (k - i - 1))) := by
          rw [pow_add, pow_add, pow_one]; ring
  rw [Nat.testBit_to_div_mod, Nat.testBit_to_div_mod, hs,
    Nat.add_mul_div_left _ _ (Nat.two_pow_pos i)]
  have hpar : (L / 2 ^ i + 2 * (A * 2 ^ (k - i - 1))) % 2 = L / 2 ^ i % 2 := by omega
  rw [hpar]

theorem testBit_add_mul_pow_high {i k : ℕ} (A L : ℕ) (hL : L < 2 ^ k) (hi : k ≤ i) :
    (A * 2 ^ k + L).testBit i = A.testBit (i - k) := by
  rw [Nat.testBit_to_div_mod, Nat.testBit_to_div_mod]
  have h1 : (A * 2 ^ k + L) / 2 ^ i = A / 2 ^ (i - k) := by
    have hi2 : (2 : ℕ) ^ i = 2 ^ k * 2 ^ (i - k) := by
      rw [← pow_add]; congr 1; omega
    rw [hi2, ← Nat.div_div_eq_div_mul]
    congr 1
    rw [add_comm, mul_comm, Nat.add_mul_div_left _ _ (Nat.two_pow_pos k),
      Nat.div_eq_of_lt hL, Nat.zero_add]
  rw [h1]

theorem lor_window (x y : ℕ) (k j : ℕ) (hx : x / 2 ^ k % 2 ^ j = 0) (hy : y < 2 ^ j) :
    x ||| y * 2 ^ k = x + y * 2 ^ k := by
  have hL : x % 2 ^ k < 2 ^ k := Nat.mod_lt _ (Nat.two_pow_pos k)
  have hdec : x = (x / 2 ^ (k + j) * 2 ^ j) * 2 ^ k + x % 2 ^ k := by
    have h1 : x / 2 ^ k = 2 ^ j * (x / 2 ^ (k + j)) := by
      conv_lhs => rw [← Nat.div_add_mod (x / 2 ^ k) (2 ^ j)]
      rw [hx, Nat.add_zero, Nat.div_div_eq_div_mul, ← pow_add]
    calc x = 2 ^ k * (x / 2 ^ k) + x % 2 ^ k := (Nat.div_add_mod x (2 ^ k)).symm
      _ = (x / 2 ^ (k + j) * 2 ^ j) * 2 ^ k + x % 2 ^ k := by rw [h1]; ring
  set H := x / 2 ^ (k + j) with hH
  set L := x % 2 ^ k with hLdef
  have hsum : x + y * 2 ^ k = (H * 2 ^ j + y) * 2 ^ k + L := by rw [hdec]; ring
  apply Nat.eq_of_testBit_eq
  intro i
  rw [Nat.testBit_lor, hsum, testBit_mul_pow]
  rcases Nat.lt_or_ge i k with hik | hik
  · have hd : decide (k ≤ i) = false := by simp; omega
    rw [hd, Bool.false_and, Bool.or_false, testBit_add_mul_pow_low _ _ hik]
    conv_lhs => rw [hdec]
    rw [testBit_add_mul_pow_low _ _ hik]
  · have hd : decide (k ≤ i) = true := by simp [hik]
    rw [hd, Bool.true_and, testBit_add_mul_pow_high _ _ hL hik]
    conv_lhs => rw [hdec]
    rw [testBit_add_mul_pow_high _ _ hL hik]
    rcases Nat.lt_or_ge (i - k) j with hij | hij
    · have e1 : (H * 2 ^ j).testBit (i - k) = false := by
        rw [← Nat.add_zero (H * 2 ^ j), testBit_add_mul_pow_low _ _ hij,
          Nat.zero_testBit]
      have e2 : (H * 2 ^ j + y).testBit (i - k) = y.testBit (i - k) :=
        testBit_add_mul_pow_low _ _ hij
      rw [e1, e2, Bool.false_or]
    · have e1 : (H * 2 ^ j).testBit (i - k) = H.testBit (i - k - j) := by
        rw [← Nat.add_zero (H * 2 ^ j),
          testBit_add_mul_pow_high _ _ (Nat.two_pow_pos j) hij]
      have e2 : (H * 2 ^ j + y).testBit (i - k) = H.testBit (i - k - j) :=
        testBit_add_mul_pow_high _ _ hy hij
      have e3 : y.testBit (i - k) = false :=
        Nat.testBit_lt_two_pow
          (lt_of_lt_of_le hy (Nat.pow_le_pow_right (by norm_num) hij))
      rw [e1, e2, e3, Bool.or_false]

theorem lor_low (x y : ℕ) (j : ℕ) (hx : x % 2 ^ j = 0) (hy : y < 2 ^ j) :
    x ||| y = x + y := by
  have := lor_window x y 0 j (by simpa using hx) hy
  simpa using this

theorem land_window (x k j : ℕ) :
    x &&& (2 ^ j - 1) * 2 ^ k = x / 2 ^ k % 2 ^ j * 2 ^ k := by
  apply Nat.eq_of_testBit_eq
  intro i
  rw [Nat.testBit_land, testBit_mul_pow, testBit_mul_pow, Nat.testBit_two_pow_sub_one,
    Nat.testBit_mod_two_pow, ← Nat.shiftRight_eq_div_pow, Nat.testBit_shiftRight]
  rcases Nat.lt_or_ge i k with hik | hik
  · have hd : decide (k ≤ i) = false := by simp; omega
    rw [hd]; simp
  · have hd : decide (k ≤ i) = true := by simp [hik]
    have hki : k + (i - k) = i := by omega
    rw [hd, hki, Bool.true_and, Bool.true_and]
    cases x.testBit i <;> cases h : decide (i - k < j) <;> simp

theorem land_low (x j : ℕ) : x &&& (2 ^ j - 1) = x % 2 ^ j := by
  have := land_window x 0 j
  simpa using this

theorem testBit_andNot (v m i : ℕ) :
    (andNot v m).testBit i = (v.testBit i && !m.testBit i) := by
  unfold andNot
  rw [Nat.testBit_xor, Nat.testBit_land]
  cases v.testBit i <;> cases m.testBit i <;> rfl

theorem andNot_eq_self {v m : ℕ} (h : v &&& m = 0) : andNot v m = v := by
  unfold andNot
  rw [h, Nat.xor_zero]

theorem int_land_mask_lt (c : ℤ) : (Int.land c 0x3FFF).toNat < 2 ^ 14 := by
  cases c with
  | ofNat m =>
      show (Int.ofNat (m &&& 16383)).toNat < 2 ^ 14
      have h := Nat.and_le_right (n := m) (m := 16383)
      simpa using by omega
  | negSucc m =>
      show (Int.ofNat (Nat.ldiff 16383 m)).toNat < 2 ^ 14
      have hb : Nat.ldiff 16383 m % 2 ^ 14 = Nat.ldiff 16383 m := by
        apply Nat.eq_of_testBit_eq
        intro i
        rw [Nat.testBit_mod_two_pow, Nat.testBit_ldiff]
        rcases Nat.lt_or_ge i 14 with h | h
        · simp [h]
        · have h16 : (16383 : ℕ).testBit i = false :=
            Nat.testBit_lt_two_pow
              (lt_of_lt_of_le (by norm_num)
                (Nat.pow_le_pow_right (by norm_num) h))
          simp [h16]
      have := Nat.mod_lt (Nat.ldiff 16383 m) (Nat.two_pow_pos 14)
      rw [hb] at this
      simpa using this

/-! ## Closed arithmetic forms of the packers and the tagger -/

theorem subsec_encode_lt (v : ℕ) (hv : v < 10 ^ 9) : _subsec_encode v < 2 ^ 30 := by
  unfold _subsec_encode
  omega

theorem uuid6_int_eq (t : ℕ) (cs : ℤ) (node : ℕ) (hnode : node < 2 ^ 48) :
    uuid6_int t cs node =
      (t / 2 ^ 12 % 2 ^ 48) * 2 ^ 80 + (t % 2 ^ 12) * 2 ^ 64
        + (Int.land cs 0x3FFF).toNat * 2 ^ 48 + node := by
  unfold uuid6_int
  rw [Nat.shiftRight_eq_div_pow,
    show (0xFFFFFFFFFFFF : ℕ) = 2 ^ 48 - 1 by norm_num,
    show (0x0FFF : ℕ) = 2 ^ 12 - 1 by norm_num,
    land_low, land_low, Nat.shiftLeft_eq, Nat.shiftLeft_eq, Nat.shiftLeft_eq]
  have hB : t % 2 ^ 12 < 2 ^ 12 := Nat.mod_lt _ (Nat.two_pow_pos 12)
  have hC : (Int.land cs 0x3FFF).toNat < 2 ^ 14 := int_land_mask_lt cs
  rw [lor_window _ _ 64 12 (by omega) hB,
    lor_window _ _ 48 14 (by omega) hC,
    lor_low _ _ 48 (by omega) hnode]

theorem uuid7_int_eq (n r : ℕ) (hr : r < 2 ^ 56) :
    uuid7_int n r =
      (n / 10 ^ 9 % 2 ^ 36) * 2 ^ 92
        + (_subsec_encode (n % 10 ^ 9) / 2 ^ 18) * 2 ^ 80
        + (_subsec_encode (n % 10 ^ 9) / 2 ^ 6 % 2 ^ 12) * 2 ^ 64
        + (_subsec_encode (n % 10 ^ 9) % 2 ^ 6) * 2 ^ 56 + r := by
  unfold uuid7_int
  simp only
  have hs : _subsec_encode (n % 10 ^ 9) < 2 ^ 30 :=
    subsec_encode_lt _ (Nat.mod_lt _ (by norm_num))
  rw [Nat.shiftRight_eq_div_pow, Nat.shiftRight_eq_div_pow,
    show (0x0FFFFFFFFF : ℕ) = 2 ^ 36 - 1 by norm_num,
    show (0x0FFF : ℕ) = 2 ^ 12 - 1 by norm_num,
    show (0x3F : ℕ) = 2 ^ 6 - 1 by norm_num,
    land_low, land_low, land_low,
    Nat.shiftLeft_eq, Nat.shiftLeft_eq, Nat.shiftLeft_eq, Nat.shiftLeft_eq]
  have ha : _subsec_encode (n % 10 ^ 9) / 2 ^ 18 < 2 ^ 12 := by omega
  have hb : _subsec_encode (n % 10 ^ 9) / 2 ^ 6 % 2 ^ 12 < 2 ^ 12 :=
    Nat.mod_lt _ (Nat.two_pow_pos 12)
  have hc : _subsec_encode (n % 10 ^ 9) % 2 ^ 6 < 2 ^ 6 :=
    Nat.mod_lt _ (Nat.two_pow_pos 6)
  rw [lor_window _ _ 80 12 (by omega) ha,
    lor_window _ _ 64 12 (by omega) hb,
    lor_window _ _ 56 6 (by omega) hc,
    lor_low _ _ 56 (by omega) hr]

theorem applyVersionVariant_eq_of_clear (u ver : ℕ)
    (h62 : u / 2 ^ 62 % 2 ^ 2 = 0) (h76 : u / 2 ^ 76 % 2 ^ 4 = 0)
    (hver : ver < 2 ^ 4) :
    applyVersionVariant u ver = u + 2 ^ 63 + ver * 2 ^ 76 := by
  unfold applyVersionVariant
  rw [show (0xC000 : ℕ) <<< 48 = (2 ^ 2 - 1) * 2 ^ 62 by norm_num [Nat.shiftLeft_eq],
    show (0x8000 : ℕ) <<< 48 = 1 * 2 ^ 63 by norm_num [Nat.shiftLeft_eq],
    show (0xF000 : ℕ) <<< 64 = (2 ^ 4 - 1) * 2 ^ 76 by norm_num [Nat.shiftLeft_eq],
    Nat.shiftLeft_eq]
  have hA1 : u &&& (2 ^ 2 - 1) * 2 ^ 62 = 0 := by
    rw [land_window, h62, Nat.zero_mul]
  rw [andNot_eq_self hA1]
  rw [lor_window u 1 63 1 (by omega) (by norm_num)]
  have hA2 : (u + 1 * 2 ^ 63) &&& (2 ^ 4 - 1) * 2 ^ 76 = 0 := by
    rw [land_window]
    have hz : (u + 1 * 2 ^ 63) / 2 ^ 76 % 2 ^ 4 = 0 := by omega
    rw [hz, Nat.zero_mul]
  rw [andNot_eq_self hA2]
  rw [lor_window _ ver 76 4 (by omega) hver]
  ring

theorem testBit_applyVersionVariant (v ver : ℕ) (hver : ver < 2 ^ 4) (i : ℕ) :
    (applyVersionVariant v ver).testBit i =
      if i = 62 then false
      else if i = 63 then true
      else if 76 ≤ i ∧ i < 80 then ver.testBit (i - 76)
      else v.testBit i := by
  unfold applyVersionVariant
  rw [show (0xC000 : ℕ) <<< 48 = (2 ^ 2 - 1) * 2 ^ 62 by norm_num [Nat.shiftLeft_eq],
    show (0x8000 : ℕ) <<< 48 = 2 ^ 63 by norm_num [Nat.shiftLeft_eq],
    show (0xF000 : ℕ) <<< 64 = (2 ^ 4 - 1) * 2 ^ 76 by norm_num [Nat.shiftLeft_eq],
    Nat.shiftLeft_eq]
  rw [Nat.testBit_lor, testBit_andNot, Nat.testBit_lor, testBit_andNot,
    testBit_mul_pow, testBit_mul_pow, testBit_mul_pow,
    Nat.testBit_two_pow, Nat.testBit_two_pow_sub_one, Nat.testBit_two_pow_sub_one]
  by_cases h62 : i = 62
  · subst h62
    simp
  · by_cases h63 : i = 63
    · subst h63
      simp
    · by_cases hw : 76 ≤ i ∧ i < 80
      · have e1 : (decide (62 ≤ i) && decide (i - 62 < 2)) = false := by
          simp
          omega
        have e2 : decide (63 = i) = false := by
          simp
          omega
        have e3 : decide (76 ≤ i) = true := by simp [hw.1]
        have e4 : decide (i - 76 < 4) = true := by
          simp
          omega
        rw [e1, e2, e3, e4]
        simp [h62, h63, hw]
      · have e1 : (decide (62 ≤ i) && decide (i - 62 < 2)) = false := by
          simp
          omega
        have e2 : decide (63 = i) = false := by
          simp
          omega
        have e3 : (decide (76 ≤ i) && decide (i - 76 < 4)) = false := by
          simp
          omega
        have e4 : (decide (76 ≤ i) && ver.testBit (i - 76)) = false := by
          rcases Nat.lt_or_ge i 76 with h | h
          · have hf : decide (76 ≤ i) = false := by
              simp
              omega
            rw [hf, Bool.false_and]
          · have hvb : ver.testBit (i - 76) = false :=
              Nat.testBit_lt_two_pow
                (lt_of_lt_of_le hver (Nat.pow_le_pow_right (by norm_num) (by omega)))
            rw [hvb, Bool.and_false]
        rw [e1, e2, e3, e4]
        simp [h62, h63, hw]

theorem version_eq (u : ℕ) (h63 : u / 2 ^ 63 % 2 = 1) (h62 : u / 2 ^ 62 % 2 = 0) :
    version u = some (u / 2 ^ 76 % 2 ^ 4) := by
  unfold version
  rw [show (0x8000 : ℕ) <<< 48 = (2 ^ 1 - 1) * 2 ^ 63 by norm_num [Nat.shiftLeft_eq],
    show (0x4000 : ℕ) <<< 48 = (2 ^ 1 - 1) * 2 ^ 62 by norm_num [Nat.shiftLeft_eq],
    land_window, land_window]
  have hcond : u / 2 ^ 63 % 2 ^ 1 * 2 ^ 63 ≠ 0 ∧ u / 2 ^ 62 % 2 ^ 1 * 2 ^ 62 = 0 := by
    constructor
    · omega
    · omega
  rw [if_pos hcond, Nat.shiftRight_eq_div_pow,
    show (0xF : ℕ) = 2 ^ 4 - 1 by norm_num, land_low]

/-! ## Exactness of the floating-point sub-second decode -/

theorem rne_intCast (n : ℤ) : rne (n : ℚ) = n := by
  unfold rne
  rw [Int.floor_intCast]
  norm_num

theorem toDouble_dyadic (m : ℕ) (hm : m < 2 ^ 53) :
    toDouble ((m : ℚ) / 2 ^ 21) = (m : ℚ) / 2 ^ 21 := by
  rcases Nat.eq_zero_or_pos m with h0 | hpos
  · subst h0
    simp [toDouble]
  · set q : ℚ := (m : ℚ) / 2 ^ 21 with hqdef
    have hq : 0 < q := by
      rw [hqdef]
      exact div_pos (by exact_mod_cast hpos) (by positivity)
    have hqle : q < 2 ^ 32 := by
      rw [hqdef, div_lt_iff (by positivity : (0 : ℚ) < 2 ^ 21)]
      have hmq : (m : ℚ) < 2 ^ 53 := by exact_mod_cast hm
      calc (m : ℚ) < 2 ^ 53 := hmq
        _ = 2 ^ 32 * 2 ^ 21 := by norm_num
    have hlog : Int.log 2 q < 32 := by
      have h2 : q < (2 : ℚ) ^ (32 : ℤ) := by
        rw [show ((2 : ℚ) ^ (32 : ℤ)) = 2 ^ (32 : ℕ) from zpow_natCast 2 32]
        exact hqle
      exact (Int.lt_zpow_iff_log_lt (by norm_num) hq).mp h2
    set e := Int.log 2 q with he
    have h31 : (0 : ℤ) ≤ 31 - e := by omega
    have hexp : ((31 - e).toNat : ℤ) = 31 - e := Int.toNat_of_nonneg h31
    have hintval : q * (2 : ℚ) ^ (52 - e) = ((m * 2 ^ (31 - e).toNat : ℕ) : ℚ) := by
      push_cast
      rw [hqdef, div_mul_eq_mul_div, div_eq_iff (by positivity : ((2 : ℚ) ^ 21) ≠ 0)]
      rw [← zpow_natCast (2 : ℚ) (31 - e).toNat, hexp, ← zpow_natCast (2 : ℚ) 21,
        mul_assoc, ← zpow_add₀ (by norm_num : (2 : ℚ) ≠ 0)]
      have hexp2 : 31 - e + ((21 : ℕ) : ℤ) = 52 - e := by push_cast; ring
      rw [hexp2]
    unfold toDouble
    rw [if_neg (not_le.mpr hq), ← he, hintval]
    have hcast : ((m * 2 ^ (31 - e).toNat : ℕ) : ℚ)
        = (((m * 2 ^ (31 - e).toNat : ℕ) : ℤ) : ℚ) := by push_cast; ring
    rw [hcast, rne_intCast, ← hcast, ← hintval, mul_assoc,
      ← zpow_add₀ (by norm_num : (2 : ℚ) ≠ 0)]
    have : (52 - e) + (e - 52) = (0 : ℤ) := by ring
    rw [this, zpow_zero, mul_one]

theorem subsec_decode_eq_ceil (v : ℕ) (hv : v < 2 ^ 30) :
    _subsec_decode v = ⌈((v : ℚ) * 10 ^ 9) / 2 ^ 30⌉ := by
  unfold _subsec_decode
  have key : ((v : ℚ) * 10 ^ 9) / 2 ^ 30 = ((v * 5 ^ 9 : ℕ) : ℚ) / 2 ^ 21 := by
    push_cast
    rw [div_eq_div_iff (by positivity) (by positivity)]
    ring_nf
  rw [key, toDouble_dyadic _ (by omega)]

theorem subsec_roundtrip (n : ℕ) (hn : n < 10 ^ 9) :
    _subsec_decode (_subsec_encode n) = n := by
  have he : _subsec_encode n < 2 ^ 30 := subsec_encode_lt n hn
  rw [subsec_decode_eq_ceil _ he]
  have h1 : _subsec_encode n * 10 ^ 9 ≤ n * 2 ^ 30 := by
    unfold _subsec_encode
    exact Nat.div_mul_le_self _ _
  have h2 : n * 2 ^ 30 < _subsec_encode n * 10 ^ 9 + 10 ^ 9 := by
    unfold _subsec_encode
    omega
  rw [Int.ceil_eq_iff]
  have h1q : (_subsec_encode n : ℚ) * 10 ^ 9 ≤ (n : ℚ) * 2 ^ 30 := by exact_mod_cast h1
  have h2q : (n : ℚ) * 2 ^ 30 < (_subsec_encode n : ℚ) * 10 ^ 9 + 10 ^ 9 := by
    exact_mod_cast h2
  constructor
  · rw [lt_div_iff (by positivity : (0 : ℚ) < 2 ^ 30)]
    push_cast
    linarith
  · rw [div_le_iff (by positivity : (0 : ℚ) < 2 ^ 30)]
    push_cast
    linarith

/-! ## The monotonic clock -/

theorem advance_snd (st : Option ℕ) (c : ℕ) :
    (advance st c).2 = some (advance st c).1 := by
  cases st with
  | none => rfl
  | some w =>
      by_cases h : c ≤ w <;> simp [advance, h]

theorem advance_gt (w c : ℕ) : w < (advance (some w) c).1 := by
  by_cases h : c ≤ w <;> simp [advance, h] <;> omega

theorem runClock_gt (cs : List ℕ) : ∀ w : ℕ, ∀ x ∈ runClock (some w) cs, w < x := by
  induction cs with
  | nil => simp [runClock]
  | cons c cs ih =>
      intro w x hx
      simp only [runClock] at hx
      rw [advance_snd] at hx
      rcases List.mem_cons.mp hx with h | h
      · rw [h]
        exact advance_gt w c
      · exact lt_trans (advance_gt w c) (ih _ x h)

theorem runClock_chain (st : Option ℕ) (cs : List ℕ) :
    List.Chain' (· < ·) (runClock st cs) := by
  induction cs generalizing st with
  | nil => exact List.chain'_nil
  | cons c cs ih =>
      simp only [runClock]
      rw [advance_snd]
      refine List.chain'_cons'.mpr ⟨?_, ?_⟩
      · intro y hy
        exact runClock_gt cs _ y (List.mem_of_mem_head? hy)
      · rw [← advance_snd]
        exact ih _

/-! ## Constructor helpers -/

theorem construct_uuid_natCast (v ver : ℕ) (hv : v < 2 ^ 128)
    (h6 : 6 ≤ ver) (h7 : ver ≤ 7) :
    construct_uuid (v : ℤ) (some (ver : ℤ)) = some (applyVersionVariant v ver) := by
  unfold construct_uuid
  have hc : ¬¬((0 : ℤ) ≤ (v : ℤ) ∧ (v : ℤ) < 2 ^ 128) :=
    not_not_intro ⟨Int.natCast_nonneg v, by exact_mod_cast hv⟩
  rw [if_neg hc]
  show (if ¬((6 : ℤ) ≤ (ver : ℤ) ∧ (ver : ℤ) ≤ 7) then none
        else some (applyVersionVariant ((v : ℤ)).toNat ((ver : ℤ)).toNat)) = _
  have hc2 : ¬¬((6 : ℤ) ≤ (ver : ℤ) ∧ (ver : ℤ) ≤ 7) :=
    not_not_intro ⟨by exact_mod_cast h6, by exact_mod_cast h7⟩
  rw [if_neg hc2]
  simp

theorem construct_uuid_tag6 (x : ℕ) (hx : x < 2 ^ 128) :
    construct_uuid (x : ℤ) (some 6) = some (applyVersionVariant x 6) := by
  have h := construct_uuid_natCast x 6 hx (by norm_num) (by norm_num)
  simpa using h

theorem construct_uuid_tag7 (x : ℕ) (hx : x < 2 ^ 128) :
    construct_uuid (x : ℤ) (some 7) = some (applyVersionVariant x 7) := by
  have h := construct_uuid_natCast x 7 hx (by norm_num) (by norm_num)
  simpa using h

theorem applyVersionVariant_fields (v : ℕ) {ver : ℕ} (hver : ver = 6 ∨ ver = 7) :
    applyVersionVariant v ver / 2 ^ 62 % 4 = 2 ∧
      applyVersionVariant v ver / 2 ^ 76 % 16 = ver := by
  have hver16 : ver < 2 ^ 4 := by rcases hver with h | h <;> subst h <;> norm_num
  have b62 := testBit_applyVersionVariant v ver hver16 62
  have b63 := testBit_applyVersionVariant v ver hver16 63
  have b76 := testBit_applyVersionVariant v ver hver16 76
  have b77 := testBit_applyVersionVariant v ver hver16 77
  have b78 := testBit_applyVersionVariant v ver hver16 78
  have b79 := testBit_applyVersionVariant v ver hver16 79
  rcases hver with h | h <;> subst h <;>
    · norm_num [Nat.testBit_to_div_mod] at b62 b63 b76 b77 b78 b79
      constructor <;> omega

/-! ## Claim theorems -/

/-- C1: for each generator kind separately, every sequence of generation
calls within one process lifetime yields a strictly increasing sequence of
issued timestamps, regardless of the candidate wall-clock values read; the
step behaviour is: an unset watermark stores and returns the candidate, a
candidate at most the watermark yields (and stores) watermark + 1, and a
larger candidate is stored and returned. -/
theorem claim_monotonic_clock (candidates : List ℕ) :
    List.Chain' (· < ·) (runClock none candidates) ∧
      (∀ c, advance none c = (c, some c)) ∧
      (∀ w c, c ≤ w → advance (some w) c = (w + 1, some (w + 1))) ∧
      (∀ w c, w < c → advance (some w) c = (c, some c)) := by
  refine ⟨runClock_chain none candidates, fun c => rfl, ?_, ?_⟩
  · intro w c h
    simp [advance, h]
  · intro w c h
    have hh : ¬c ≤ w := by omega
    simp [advance, hh]

theorem claim_monotonic_clock_witness :
    List.Chain' (· < ·) (runClock none [10, 10, 4, 99]) ∧
      advance (some 7) 3 = (8, some 8) ∧ advance (some 7) 9 = (9, some 9) :=
  ⟨(claim_monotonic_clock [10, 10, 4, 99]).1,
    (claim_monotonic_clock []).2.2.1 7 3 (by decide),
    (claim_monotonic_clock []).2.2.2 7 9 (by decide)⟩

/-- C2 counterexample: the claimed 40-bit timestamp field is refuted at the
concrete nanosecond input `2^36 * 10^9` (whole-second count `2^36`): the
source's packer disagrees with the spec's 40-bit layout there, and it even
collides with the packing of whole-second count `0`, which a 40-bit field
would separate. -/
theorem claim_v7_layout40_counterexample :
    uuid7_int (2 ^ 36 * 10 ^ 9) 0 ≠ uuid7_int_spec40 (2 ^ 36 * 10 ^ 9) 0 ∧
      uuid7_int (2 ^ 36 * 10 ^ 9) 0 = uuid7_int 0 0 := by
  constructor
  · decide
  · decide

/-- C2 (amended): for every v7 generation call the 128-bit pre-tag value is
packed as `[timestamp_s:36][subsec_a:12][subsec_b:12][subsec_c:6][random:56]`
with the whole-second count masked to 36 bits at bit 92, `subsec_a` at bit
80, `subsec_b` at bit 64, `subsec_c` at bit 56 and the random tail at bit 0
— a 122-bit payload inside the 128-bit value (the version and variant bits
are inserted afterwards into the gaps at 76–79 and 62–63). -/
theorem claim_v7_layout36 (n r : ℕ) (hr : r < 2 ^ 56) :
    uuid7_int n r =
      (n / 10 ^ 9 % 2 ^ 36) * 2 ^ 92
        + (_subsec_encode (n % 10 ^ 9) / 2 ^ 18) * 2 ^ 80
        + (_subsec_encode (n % 10 ^ 9) / 2 ^ 6 % 2 ^ 12) * 2 ^ 64
        + (_subsec_encode (n % 10 ^ 9) % 2 ^ 6) * 2 ^ 56 + r ∧
      uuid7_int n r < 2 ^ 128 := by
  refine ⟨uuid7_int_eq n r hr, ?_⟩
  have hs : _subsec_encode (n % 10 ^ 9) < 2 ^ 30 :=
    subsec_encode_lt _ (Nat.mod_lt _ (by norm_num))
  rw [uuid7_int_eq n r hr]
  omega

theorem claim_v7_layout36_witness :
    (3 : ℕ) < 2 ^ 56 ∧
      (uuid7_int (10 ^ 9 + 1) 3 =
          ((10 ^ 9 + 1) / 10 ^ 9 % 2 ^ 36) * 2 ^ 92
            + (_subsec_encode ((10 ^ 9 + 1) % 10 ^ 9) / 2 ^ 18) * 2 ^ 80
            + (_subsec_encode ((10 ^ 9 + 1) % 10 ^ 9) / 2 ^ 6 % 2 ^ 12) * 2 ^ 64
            + (_subsec_encode ((10 ^ 9 + 1) % 10 ^ 9) % 2 ^ 6) * 2 ^ 56 + 3 ∧
        uuid7_int (10 ^ 9 + 1) 3 < 2 ^ 128) :=
  ⟨by norm_num, claim_v7_layout36 (10 ^ 9 + 1) 3 (by norm_num)⟩

set_option maxRecDepth 10000 in
/-- C3 (evaluation of the code at the claimed vector): with the mocked time
source returning `0x17F21CFD130 * 10^6` nanoseconds, an unset v7 watermark
and random tail `0`, the generated UUID's bits 76–127 spell the thirteen
hex digits `06214f19e0007` — the draft-02 layout the code implements — and
not the `017f21cfd1307` asserted by the claim (and by the repository's own
`test_uuid7_hex_from_time`). -/
theorem claim_v7_vector_mismatch :
    ((uuid7_gen none (0x17F21CFD130 * 10 ^ 6) 0).1.map fun u => u >>> 76)
        = some 0x06214F19E0007 ∧
      (0x06214F19E0007 : ℕ) ≠ 0x017F21CFD1307 := by
  constructor
  · decide
  · decide

/-- C4: for every 30-bit fraction `f`, `_subsec_decode f` — although it
divides via binary64 floating point inside `math.ceil` — returns exactly
the mathematical ceiling of the rational `f * 10^9 / 2^30` (the double is
exact on this domain: the quotient is `f * 5^9 / 2^21` with numerator
below `2^53`). -/
theorem claim_subsec_decode_exact (f : ℕ) (hf : f < 2 ^ 30) :
    _subsec_decode f = ⌈((f : ℚ) * 10 ^ 9) / 2 ^ 30⌉ :=
  subsec_decode_eq_ceil f hf

theorem claim_subsec_decode_exact_witness :
    (123456 : ℕ) < 2 ^ 30 ∧
      _subsec_decode 123456 = ⌈((123456 : ℚ) * 10 ^ 9) / 2 ^ 30⌉ :=
  ⟨by norm_num, claim_subsec_decode_exact 123456 (by norm_num)⟩

/-- C5: for every nanosecond remainder `n < 10^9`, decoding the encoded
sub-second fraction yields `n'` with `n' ≥ n` and `n' - n < 2` (in fact
the round trip is exact, so the stated bounds hold with slack zero). -/
theorem claim_subsec_roundtrip_bounded (n : ℕ) (hn : n < 10 ^ 9) :
    (n : ℤ) ≤ _subsec_decode (_subsec_encode n) ∧
      _subsec_decode (_subsec_encode n) - n < 2 := by
  rw [subsec_roundtrip n hn]
  omega

theorem claim_subsec_roundtrip_bounded_witness :
    (999999999 : ℕ) < 10 ^ 9 ∧
      ((999999999 : ℤ) ≤ _subsec_decode (_subsec_encode 999999999) ∧
        _subsec_decode (_subsec_encode 999999999) - 999999999 < 2) :=
  ⟨by norm_num, claim_subsec_roundtrip_bounded 999999999 (by norm_num)⟩

/-- C6: packing any 60-bit timestamp the way `uuid6` does (upper 48 bits at
bit 80, lower 12 bits at bit 64, any clock sequence, any 48-bit node) and
tagging with version 6, then reading the `time` accessor, returns exactly
that timestamp with no rounding. -/
theorem claim_v6_time_roundtrip (t : ℕ) (cs : ℤ) (node : ℕ)
    (ht : t < 2 ^ 60) (hnode : node < 2 ^ 48) :
    time (applyVersionVariant (uuid6_int t cs node) 6) = (t : ℤ) := by
  have hX := int_land_mask_lt cs
  have huu : applyVersionVariant (uuid6_int t cs node) 6
      = t / 2 ^ 12 * 2 ^ 80 + 6 * 2 ^ 76 + (t % 2 ^ 12) * 2 ^ 64 + 2 ^ 63
        + (Int.land cs 0x3FFF).toNat * 2 ^ 48 + node := by
    have hueq := uuid6_int_eq t cs node hnode
    have h1 : uuid6_int t cs node / 2 ^ 62 % 2 ^ 2 = 0 := by
      rw [hueq]
      omega
    have h2 : uuid6_int t cs node / 2 ^ 76 % 2 ^ 4 = 0 := by
      rw [hueq]
      omega
    rw [applyVersionVariant_eq_of_clear _ 6 h1 h2 (by norm_num), hueq]
    omega
  rw [huu]
  obtain ⟨X, hXb, hXeq⟩ : ∃ X, X < 2 ^ 14 ∧ (Int.land cs 0x3FFF).toNat = X :=
    ⟨_, hX, rfl⟩
  rw [hXeq]
  generalize hu : t / 2 ^ 12 * 2 ^ 80 + 6 * 2 ^ 76 + (t % 2 ^ 12) * 2 ^ 64
      + 2 ^ 63 + X * 2 ^ 48 + node = u'
  have htdiv : t / 2 ^ 12 < 2 ^ 48 := by omega
  have hver : version u' = some 6 := by
    rw [version_eq u' (by omega) (by omega)]
    congr 1
    omega
  unfold time
  rw [hver, if_pos rfl]
  unfold time_low time_mid time_hi_version
  rw [Nat.shiftRight_eq_div_pow, Nat.shiftRight_eq_div_pow, Nat.shiftRight_eq_div_pow,
    show (0xFFFF : ℕ) = 2 ^ 16 - 1 by norm_num,
    show (0x0FFF : ℕ) = 2 ^ 12 - 1 by norm_num,
    land_low, land_low, land_low,
    Nat.shiftLeft_eq, Nat.shiftLeft_eq]
  rw [lor_window _ _ 12 16 (by omega) (by omega),
    lor_low _ _ 12 (by omega) (by omega)]
  have e1 : u' / 2 ^ 96 = t / 2 ^ 12 / 2 ^ 16 := by omega
  have e2 : u' / 2 ^ 80 % 2 ^ 16 = t / 2 ^ 12 % 2 ^ 16 := by omega
  have e3 : u' / 2 ^ 64 % 2 ^ 16 % 2 ^ 12 = t % 2 ^ 12 := by omega
  rw [e1, e2, e3]
  have hfin : t / 2 ^ 12 / 2 ^ 16 * 2 ^ 28 + t / 2 ^ 12 % 2 ^ 16 * 2 ^ 12
      + t % 2 ^ 12 = t := by omega
  exact_mod_cast congrArg (Nat.cast (R := ℤ)) hfin

theorem claim_v6_time_roundtrip_witness :
    (81985529216486894 : ℕ) < 2 ^ 60 ∧ (5 : ℕ) < 2 ^ 48 ∧
      time (applyVersionVariant (uuid6_int 81985529216486894 (-3) 5) 6)
        = (81985529216486894 : ℤ) :=
  ⟨by norm_num, by norm_num,
    claim_v6_time_roundtrip 81985529216486894 (-3) 5 (by norm_num) (by norm_num)⟩

/-- C7: for every 128-bit value and every requested version in {6, 7}, the
constructed UUID's two variant bits (bits 62–63) equal binary 10 and its
version nibble (bits 76–79) equals the requested version. -/
theorem claim_version_variant_tagging (v ver : ℕ)
    (hv : v < 2 ^ 128) (hver : ver = 6 ∨ ver = 7) :
    ∃ u, construct_uuid (v : ℤ) (some (ver : ℤ)) = some u ∧
      u >>> 62 % 4 = 2 ∧ u >>> 76 % 16 = ver := by
  have h6 : 6 ≤ ver := by rcases hver with h | h <;> omega
  have h7 : ver ≤ 7 := by rcases hver with h | h <;> omega
  refine ⟨applyVersionVariant v ver, construct_uuid_natCast v ver hv h6 h7, ?_, ?_⟩
  · rw [Nat.shiftRight_eq_div_pow]
    exact (applyVersionVariant_fields v hver).1
  · rw [Nat.shiftRight_eq_div_pow]
    exact (applyVersionVariant_fields v hver).2

theorem claim_version_variant_tagging_witness :
    (0xDEADBEEF : ℕ) < 2 ^ 128 ∧ ((7 : ℕ) = 6 ∨ (7 : ℕ) = 7) ∧
      ∃ u, construct_uuid ((0xDEADBEEF : ℕ) : ℤ) (some ((7 : ℕ) : ℤ)) = some u ∧
        u >>> 62 % 4 = 2 ∧ u >>> 76 % 16 = 7 :=
  ⟨by norm_num, by norm_num,
    claim_version_variant_tagging 0xDEADBEEF 7 (by norm_num) (by norm_num)⟩

set_option maxRecDepth 10000 in
/-- C8: the constructor fails exactly when the value is outside
`[0, 2^128)` or a present version lies outside {6, 7}; in particular
`construct_uuid (-1) none`, `construct_uuid (2^128) none` and
`construct_uuid 0 (some 5)` all fail, and each in-range value with version
absent or in {6, 7} succeeds. -/
theorem claim_construct_range (value : ℤ) (ver : Option ℤ) :
    (construct_uuid value ver = none ↔
        (value < 0 ∨ 2 ^ 128 ≤ value ∨ ∃ w, ver = some w ∧ (w < 6 ∨ 7 < w))) ∧
      construct_uuid (-1) none = none ∧
      construct_uuid (2 ^ 128) none = none ∧
      construct_uuid 0 (some 5) = none := by
  refine ⟨?_, by decide, by decide, by decide⟩
  unfold construct_uuid
  by_cases hr : 0 ≤ value ∧ value < 2 ^ 128
  · rw [if_neg (not_not_intro hr)]
    cases ver with
    | none =>
        constructor
        · intro h
          exact absurd h (by simp)
        · rintro (h | h | ⟨w, hw, hlt⟩)
          · omega
          · omega
          · exact absurd hw (by simp)
    | some w =>
        show (if ¬(6 ≤ w ∧ w ≤ 7) then none
              else some (applyVersionVariant value.toNat w.toNat)) = none ↔ _
        by_cases hw : 6 ≤ w ∧ w ≤ 7
        · rw [if_neg (not_not_intro hw)]
          constructor
          · intro h
            exact absurd h (by simp)
          · rintro (h | h | ⟨w', hw', hlt⟩)
            · omega
            · omega
            · rw [Option.some_inj] at hw'
              omega
        · rw [if_pos hw]
          refine iff_of_true rfl ?_
          exact Or.inr (Or.inr ⟨w, rfl, by omega⟩)
  · rw [if_pos hr]
    refine iff_of_true rfl ?_
    by_cases h0 : 0 ≤ value
    · exact Or.inr (Or.inl (by omega))
    · exact Or.inl (by omega)

theorem claim_construct_range_witness :
    construct_uuid 5 (some 6) ≠ none ∧ construct_uuid (-7) (some 6) = none := by
  constructor
  · intro h
    rcases (claim_construct_range 5 (some 6)).1.mp h with h' | h' | ⟨w, hw, hlt⟩
    · norm_num at h'
    · norm_num at h'
    · rw [Option.some_inj] at hw
      omega
  · exact (claim_construct_range (-7) (some 6)).1.mpr (Or.inl (by norm_num))

/-- C9: neither generator can ever raise: for every clock sequence argument
(any integer, or absent), every time-source value, every watermark state,
and every value the 14-, 48- and 56-bit random sources can return, both
packed integers are below `2^128`, so the constructor's range branch is
unreachable and both generation calls return a UUID. -/
theorem claim_generators_never_fail (last6 : Option ℕ) (n6 : ℕ)
    (clock_seq : Option ℤ) (cs_rand node : ℕ) (last7 : Option ℕ) (n7 rand : ℕ)
    (hnode : node < 2 ^ 48) (hrand : rand < 2 ^ 56) :
    (∃ u, (uuid6_gen last6 n6 clock_seq cs_rand node).1 = some u) ∧
      (∃ u, (uuid7_gen last7 n7 rand).1 = some u) := by
  obtain ⟨cs, hcs⟩ : ∃ cs : ℤ, (uuid6_gen last6 n6 clock_seq cs_rand node).1
      = construct_uuid
          (uuid6_int (advance last6 (n6 / 100 + 0x01B21DD213814000)).1 cs node)
          (some 6) := by
    cases clock_seq with
    | none => exact ⟨(cs_rand : ℤ), by simp only [uuid6_gen]⟩
    | some c => exact ⟨c, by simp only [uuid6_gen]⟩
  have hg7 : (uuid7_gen last7 n7 rand).1
      = construct_uuid (uuid7_int (advance last7 n7).1 rand) (some 7) := by
    simp only [uuid7_gen]
  constructor
  · rw [hcs]
    refine ⟨_, construct_uuid_tag6 _ ?_⟩
    rw [uuid6_int_eq _ _ _ hnode]
    have hc := int_land_mask_lt cs
    omega
  · rw [hg7]
    refine ⟨_, construct_uuid_tag7 _ ?_⟩
    rw [uuid7_int_eq _ _ hrand]
    have hs : _subsec_encode ((advance last7 n7).1 % 10 ^ 9) < 2 ^ 30 :=
      subsec_encode_lt _ (Nat.mod_lt _ (by norm_num))
    omega

theorem claim_generators_never_fail_witness :
    (0 : ℕ) < 2 ^ 48 ∧ (0 : ℕ) < 2 ^ 56 ∧
      ((∃ u, (uuid6_gen none 0 none 0 0).1 = some u) ∧
        ∃ u, (uuid7_gen none 0 0).1 = some u) :=
  ⟨by norm_num, by norm_num,
    claim_generators_never_fail none 0 none 0 0 none 0 0 (by norm_num) (by norm_num)⟩

/-- C10: for every in-range value and version in {6, 7}, the constructed
UUID agrees with the input on every bit position except the two variant
bits 62–63, which are forced to binary 10, and the version nibble 76–79,
which is forced to the version number; no bit is shifted or relocated, so
the input's bits at those six positions are destroyed, not moved. -/
theorem claim_tagging_frame_effect (v ver : ℕ)
    (hv : v < 2 ^ 128) (hver : ver = 6 ∨ ver = 7) :
    ∃ u, construct_uuid (v : ℤ) (some (ver : ℤ)) = some u ∧
      (∀ i, i ≠ 62 → i ≠ 63 → ¬(76 ≤ i ∧ i < 80) → u.testBit i = v.testBit i) ∧
      u.testBit 62 = false ∧ u.testBit 63 = true ∧
      u >>> 76 % 16 = ver := by
  have hver16 : ver < 2 ^ 4 := by rcases hver with h | h <;> subst h <;> norm_num
  have h6 : 6 ≤ ver := by rcases hver with h | h <;> omega
  have h7 : ver ≤ 7 := by rcases hver with h | h <;> omega
  refine ⟨applyVersionVariant v ver, construct_uuid_natCast v ver hv h6 h7,
    ?_, ?_, ?_, ?_⟩
  · intro i h1 h2 h3
    rw [testBit_applyVersionVariant v ver hver16 i, if_neg h1, if_neg h2, if_neg h3]
  · rw [testBit_applyVersionVariant v ver hver16 62]
    simp
  · rw [testBit_applyVersionVariant v ver hver16 63]
    norm_num
  · rw [Nat.shiftRight_eq_div_pow]
    exact (applyVersionVariant_fields v hver).2

theorem claim_tagging_frame_effect_witness :
    (2 ^ 128 - 1 : ℕ) < 2 ^ 128 ∧ ((6 : ℕ) = 6 ∨ (6 : ℕ) = 7) ∧
      ∃ u, construct_uuid ((2 ^ 128 - 1 : ℕ) : ℤ) (some ((6 : ℕ) : ℤ)) = some u ∧
        (∀ i, i ≠ 62 → i ≠ 63 → ¬(76 ≤ i ∧ i < 80) →
          u.testBit i = (2 ^ 128 - 1 : ℕ).testBit i) ∧
        u.testBit 62 = false ∧ u.testBit 63 = true ∧
        u >>> 76 % 16 = 6 :=
  ⟨by norm_num, by norm_num,
    claim_tagging_frame_effect (2 ^ 128 - 1) 6 (by norm_num) (by norm_num)⟩

end UUID6
